import Mathlib

/-!
Verification development for the Baatein voice-agent pipeline
(`app/llm.py`, `app/pipeline.py`, `app/search.py`, `app/tts.py`,
`app/config.py`, `app/server.py`).

Text is modelled as `List Char`.  Each Python function used by the claims is
embedded as a computable Lean definition carrying the source's name where Lean
allows it.
-/

namespace Baatein

/-- Text is modelled as a list of characters. -/
abbrev Str := List Char

/-- Characters treated as whitespace by the regex class \s and by str.strip
(the ASCII part, which is all the pipeline manipulates). -/
def isSpace (c : Char) : Bool :=
  c = ' ' || c = '\t' || c = '\n' || c = '\r' || c = '\x0b' || c = '\x0c'

/-- Sentence terminator characters of the SENTENCE_END pattern class [.!?;]. -/
def isTermChar (c : Char) : Bool :=
  c = '.' || c = '!' || c = '?' || c = ';'

/-- Length of the maximal whitespace run at the front of the buffer
(the greedy \s+ of the SENTENCE_END pattern). -/
def wsRun : Str → Nat
  | [] => 0
  | c :: cs => if isSpace c then wsRun cs + 1 else 0

/-- Whether the first character exists and is whitespace. -/
def firstIsSpace : Str → Bool
  | [] => false
  | c :: _ => isSpace c

/-- End position of the leftmost match of the config.SENTENCE_END pattern
[.!?;]\s+|\n in the buffer (`none` when re.search finds no match).
At each position the first alternative [.!?;]\s+ is tried (with greedy \s+),
then the single-newline alternative. -/
def sentenceEndAux : Str → Option Nat
  | [] => none
  | c :: cs =>
    if isTermChar c && firstIsSpace cs then some (1 + wsRun cs)
    else if c = '\n' then some 1
    else (sentenceEndAux cs).map (· + 1)

/-- Python str.strip: remove whitespace from both ends. -/
def stripWs (s : Str) : Str :=
  ((s.dropWhile (fun c => isSpace c)).reverse.dropWhile (fun c => isSpace c)).reverse

/-- Membership of a code point in a closed interval. -/
def inRange (n lo hi : Nat) : Bool := lo ≤ n && n ≤ hi

/-- Characters removed by config.EMOJI_PATTERN (the union of its code-point
ranges and singletons). -/
def isEmojiChar (c : Char) : Bool :=
  let n := c.toNat
  inRange n 0x1F600 0x1F64F || inRange n 0x1F300 0x1F5FF || inRange n 0x1F680 0x1F6FF ||
  inRange n 0x1F1E0 0x1F1FF || inRange n 0x2702 0x27B0 || inRange n 0x24C2 0x1F251 ||
  inRange n 0x1F926 0x1F937 || inRange n 0x10000 0x10FFFF ||
  inRange n 0x2640 0x2642 || inRange n 0x2600 0x2B55 ||
  n = 0x200D || n = 0x23CF || n = 0x23E9 || n = 0x231A || n = 0xFE0F || n = 0x3030

/-- Markdown artifact characters removed by llm.clean_for_tts:
asterisk, hash sign, and the code tick (code point 96). -/
def isMarkdownChar (c : Char) : Bool :=
  c = '*' || c = '#' || c = Char.ofNat 96

/-- Model of llm.clean_for_tts: drop emoji and markdown characters, then strip
surrounding whitespace. -/
def clean_for_tts (s : Str) : Str :=
  stripWs (s.filter (fun c => !(isEmojiChar c || isMarkdownChar c)))

/-- Bounds of a SENTENCE_END match end position. -/
theorem wsRun_le : ∀ s : Str, wsRun s ≤ s.length := by
  intro s
  induction s with
  | nil => simp [wsRun]
  | cons c cs ih =>
    simp only [wsRun, List.length_cons]
    split
    · omega
    · omega

theorem sentenceEndAux_pos :
    ∀ {s : Str} {e : Nat}, sentenceEndAux s = some e → 1 ≤ e ∧ e ≤ s.length := by
  intro s
  induction s with
  | nil => intro e h; simp [sentenceEndAux] at h
  | cons c cs ih =>
    intro e h
    simp only [sentenceEndAux] at h
    split at h
    · have := wsRun_le cs
      simp only [Option.some.injEq] at h
      subst h
      constructor
      · omega
      · simp [List.length_cons]; omega
    · split at h
      · simp only [Option.some.injEq] at h
        subst h
        constructor
        · omega
        · simp [List.length_cons]
      · cases he : sentenceEndAux cs with
        | none => rw [he] at h; simp at h
        | some e0 =>
          rw [he] at h
          simp only [Option.map_some', Option.some.injEq] at h
          subst h
          have := ih he
          constructor
          · omega
          · simp [List.length_cons]; omega

/-- Model of llm.extract_sentences: repeatedly carve the prefix up to the end of
the leftmost SENTENCE_END match, strip it, clean it for TTS, and emit it when
non-empty; return the list of emitted fragments in discovery order together
with the remaining (unmatched) buffer. -/
def extract_sentences (buffer : Str) : List Str × Str :=
  match hm : sentenceEndAux buffer with
  | none => ([], buffer)
  | some e =>
    have hlt : (buffer.drop e).length < buffer.length := by
      have h2 := sentenceEndAux_pos hm
      simp only [List.length_drop]
      omega
    let p := extract_sentences (buffer.drop e)
    let c := clean_for_tts (stripWs (buffer.take e))
    (if c = [] then p.1 else c :: p.1, p.2)
termination_by buffer.length
decreasing_by exact hlt

theorem extract_sentences_none {s : Str} (h : sentenceEndAux s = none) :
    extract_sentences s = ([], s) := by
  unfold extract_sentences
  split
  · rfl
  · rename_i e he
    rw [h] at he
    cases he

theorem extract_sentences_some {s : Str} {e : Nat} (h : sentenceEndAux s = some e) :
    extract_sentences s =
      (let p := extract_sentences (s.drop e)
       let c := clean_for_tts (stripWs (s.take e))
       (if c = [] then p.1 else c :: p.1, p.2)) := by
  conv_lhs => unfold extract_sentences
  split
  · rename_i he
    rw [h] at he
    cases he
  · rename_i e' he
    rw [h] at he
    cases he
    rfl

/-- Whitespace characters are not sentence terminators. -/
theorem ws_not_term {c : Char} (h : isSpace c = true) : isTermChar c = false := by
  simp only [isSpace, Bool.or_eq_true, decide_eq_true_eq] at h
  rcases h with ((((h | h) | h) | h) | h) | h <;> subst h <;> decide

theorem firstIsSpace_ne_nil {cs : Str} (h : firstIsSpace cs = true) : cs ≠ [] := by
  cases cs with
  | nil => simp [firstIsSpace] at h
  | cons d ds => simp

theorem firstIsSpace_append {cs : Str} (b : Str) (h : cs ≠ []) :
    firstIsSpace (cs ++ b) = firstIsSpace cs := by
  cases cs with
  | nil => exact absurd rfl h
  | cons d ds => rfl

theorem wsRun_append (x y : Str) :
    wsRun (x ++ y) = if wsRun x = x.length then x.length + wsRun y else wsRun x := by
  induction x with
  | nil => simp [wsRun]
  | cons c cs ih =>
    simp only [List.cons_append, wsRun, List.length_cons, List.append_eq]
    by_cases hc : isSpace c
    · rw [if_pos hc, if_pos hc, ih]
      have hle := wsRun_le cs
      by_cases h2 : wsRun cs = cs.length
      · rw [if_pos h2, if_pos (by omega)]
        omega
      · rw [if_neg h2, if_neg (by omega)]
    · rw [if_neg hc, if_neg hc, if_neg (by have := List.length_pos (l := cs); omega)]

/-- Every character inside the whitespace run is whitespace. -/
theorem wsRun_take_ws : ∀ (b : Str), ∀ c ∈ b.take (wsRun b), isSpace c = true := by
  intro b
  induction b with
  | nil => intro c hc; simp at hc
  | cons d ds ih =>
    intro c hc
    simp only [wsRun] at hc
    by_cases hd : isSpace d
    · rw [if_pos hd] at hc
      simp only [List.take_succ_cons, List.mem_cons] at hc
      rcases hc with hc | hc
      · subst hc; exact hd
      · exact ih c hc
    · rw [if_neg hd] at hc
      simp at hc

theorem stripWs_ws_append {w : Str} (s : Str) (hw : ∀ c ∈ w, isSpace c = true) :
    stripWs (w ++ s) = stripWs s := by
  unfold stripWs
  rw [List.dropWhile_append_of_pos hw]

theorem stripWs_append_ws {w : Str} (s : Str) (hw : ∀ c ∈ w, isSpace c = true) :
    stripWs (s ++ w) = stripWs s := by
  unfold stripWs
  rw [List.dropWhile_append]
  by_cases h : (s.dropWhile (fun c => isSpace c)).isEmpty
  · rw [if_pos h]
    rw [List.dropWhile_eq_nil_iff.mpr hw]
    have hs : s.dropWhile (fun c => isSpace c) = [] := by
      simpa [List.isEmpty_iff] using h
    rw [hs]
  · rw [if_neg h]
    rw [List.reverse_append]
    rw [List.dropWhile_append_of_pos (by intro c hc; exact hw c (List.mem_reverse.mp hc))]

theorem stripWs_cons_ws {c : Char} (s : Str) (hc : isSpace c = true) :
    stripWs (c :: s) = stripWs s := by
  have := stripWs_ws_append (w := [c]) s (by intro d hd; simp at hd; subst hd; exact hc)
  simpa using this

/-- Appending text to a buffer that already has a SENTENCE_END match keeps the
leftmost match where it was; the end position can only grow by the greedy
whitespace run, and only when the old match ran exactly to the buffer end. -/
theorem sentenceEndAux_append {a : Str} {e : Nat} (b : Str)
    (h : sentenceEndAux a = some e) :
    ∃ k, sentenceEndAux (a ++ b) = some (e + k) ∧
      (k = 0 ∨ (e = a.length ∧ k = wsRun b)) := by
  induction a generalizing e with
  | nil => simp [sentenceEndAux] at h
  | cons c cs ih =>
    simp only [sentenceEndAux] at h
    simp only [List.cons_append, sentenceEndAux, List.append_eq]
    by_cases h1 : (isTermChar c && firstIsSpace cs) = true
    · rw [if_pos h1] at h
      injection h with h
      have hcs : cs ≠ [] := firstIsSpace_ne_nil (by
        simp only [Bool.and_eq_true] at h1; exact h1.2)
      rw [if_pos (by
        rw [firstIsSpace_append b hcs]; exact h1)]
      rw [wsRun_append]
      have hle := wsRun_le cs
      by_cases h2 : wsRun cs = cs.length
      · rw [if_pos h2]
        refine ⟨wsRun b, ?_, Or.inr ?_⟩
        · congr 1
          omega
        · constructor
          · simp only [List.length_cons]
            omega
          · rfl
      · rw [if_neg h2]
        exact ⟨0, by rw [h]; simp, Or.inl rfl⟩
    · rw [if_neg h1] at h
      by_cases h2 : c = '\n'
      · rw [if_pos h2] at h
        injection h with h
        have hterm : isTermChar c = false := by subst h2; decide
        rw [if_neg (by simp [hterm])]
        rw [if_pos h2]
        exact ⟨0, by rw [← h], Or.inl rfl⟩
      · rw [if_neg h2] at h
        cases he : sentenceEndAux cs with
        | none => rw [he] at h; simp at h
        | some e0 =>
          rw [he] at h
          simp only [Option.map_some', Option.some.injEq] at h
          have hcs : cs ≠ [] := by
            intro hnil
            rw [hnil] at he
            simp [sentenceEndAux] at he
          have h1' : (isTermChar c && firstIsSpace (cs ++ b)) = false := by
            rw [firstIsSpace_append b hcs]
            simpa using h1
          rw [if_neg (by simp [h1'])]
          rw [if_neg h2]
          obtain ⟨k, hk, hcond⟩ := ih he
          refine ⟨k, ?_, ?_⟩
          · rw [hk]
            simp only [Option.map_some', Option.some.injEq]
            omega
          · rcases hcond with hc0 | ⟨hlen, hws⟩
            · exact Or.inl hc0
            · exact Or.inr ⟨by simp [List.length_cons]; omega, hws⟩

theorem sentenceEndAux_newline_cons (Y : Str) : sentenceEndAux ('\n' :: Y) = some 1 := by
  have h1 : isTermChar '\n' = false := by decide
  simp [sentenceEndAux, h1]

theorem sentenceEndAux_ws_cons {c : Char} {Y : Str} (hc : isSpace c = true)
    (hn : c ≠ '\n') {e : Nat} (he : sentenceEndAux Y = some e) :
    sentenceEndAux (c :: Y) = some (e + 1) := by
  have h1 : isTermChar c = false := ws_not_term hc
  simp [sentenceEndAux, h1, hn, he]

theorem sentenceEndAux_ws_cons_none {c : Char} {Y : Str} (hc : isSpace c = true)
    (hn : c ≠ '\n') (he : sentenceEndAux Y = none) :
    sentenceEndAux (c :: Y) = none := by
  have h1 : isTermChar c = false := ws_not_term hc
  simp [sentenceEndAux, h1, hn, he]

/-- Carving past a leading whitespace character: when the head is a newline, or
the tail still has a match, extraction is unchanged by the extra head. -/
theorem extract_cons_ws_eq {c : Char} {Y : Str} (hc : isSpace c = true)
    (h : c = '\n' ∨ (sentenceEndAux Y).isSome = true) :
    extract_sentences (c :: Y) = extract_sentences Y := by
  rcases h with h | h
  · subst h
    rw [extract_sentences_some (sentenceEndAux_newline_cons Y)]
    have h1 : List.take 1 ('\n' :: Y) = ['\n'] := by simp
    have h2 : List.drop 1 ('\n' :: Y) = Y := by simp
    rw [h1, h2]
    have h3 : clean_for_tts (stripWs ['\n']) = [] := by decide
    simp only [h3, if_pos rfl]
    simp
  · rw [Option.isSome_iff_exists] at h
    obtain ⟨e, he⟩ := h
    by_cases hn : c = '\n'
    · subst hn
      rw [extract_sentences_some (sentenceEndAux_newline_cons Y)]
      have h1 : List.take 1 ('\n' :: Y) = ['\n'] := by simp
      have h2 : List.drop 1 ('\n' :: Y) = Y := by simp
      rw [h1, h2]
      have h3 : clean_for_tts (stripWs ['\n']) = [] := by decide
      simp only [h3, if_pos rfl]
      simp
    · rw [extract_sentences_some (sentenceEndAux_ws_cons hc hn he)]
      rw [extract_sentences_some he]
      simp only [List.take_succ_cons, List.drop_succ_cons, stripWs_cons_ws _ hc]

/-- Extraction ignores an all-whitespace block glued to the front of the buffer:
the emitted fragments are unchanged, and the remainder differs only by a
leading all-whitespace block. -/
theorem extract_ws_prepend :
    ∀ (w s : Str), (∀ c ∈ w, isSpace c = true) →
      (extract_sentences (w ++ s)).1 = (extract_sentences s).1 ∧
      ∃ w', (∀ c ∈ w', isSpace c = true) ∧
        (extract_sentences (w ++ s)).2 = w' ++ (extract_sentences s).2 := by
  intro w
  induction w with
  | nil =>
    intro s _
    exact ⟨by simp, [], by simp, by simp⟩
  | cons c w' ih =>
    intro s hw
    have hc : isSpace c = true := hw c (by simp)
    have hw' : ∀ d ∈ w', isSpace d = true := fun d hd => hw d (by simp [hd])
    have ih' := ih s hw'
    by_cases hm : c = '\n' ∨ (sentenceEndAux (w' ++ s)).isSome = true
    · have heq : extract_sentences ((c :: w') ++ s) = extract_sentences (w' ++ s) := by
        rw [List.cons_append]
        exact extract_cons_ws_eq hc hm
      rw [heq]
      exact ih'
    · push_neg at hm
      obtain ⟨hn, hnone⟩ := hm
      have hnone' : sentenceEndAux (w' ++ s) = none := by
        cases h : sentenceEndAux (w' ++ s) with
        | none => rfl
        | some e => rw [h] at hnone; simp at hnone
      have hcons : sentenceEndAux ((c :: w') ++ s) = none := by
        rw [List.cons_append]
        exact sentenceEndAux_ws_cons_none hc hn hnone'
      rw [extract_sentences_none hcons]
      rw [extract_sentences_none hnone'] at ih'
      obtain ⟨h1, w0, hw0, h2⟩ := ih'
      refine ⟨by simpa using h1.symm ▸ rfl, c :: w0, ?_, ?_⟩
      · intro d hd
        rcases List.mem_cons.mp hd with hd | hd
        · subst hd; exact hc
        · exact hw0 d hd
      · simp only [List.cons_append]
        rw [show (w' ++ s : Str) = w0 ++ (extract_sentences s).2 from h2]

theorem extract_sentences_nil : extract_sentences ([] : Str) = ([], []) :=
  extract_sentences_none (by simp [sentenceEndAux])

/-- Splitting lemma for one boundary: extracting from `a ++ b` emits exactly the
fragments of `a` followed by the fragments of `rem(a) ++ b`, and the remainder
of the restarted run differs from the one-shot remainder only by a leading
all-whitespace block. -/
theorem extract_split_aux :
    ∀ (n : Nat) (a b : Str), a.length ≤ n →
      (extract_sentences (a ++ b)).1
          = (extract_sentences a).1 ++ (extract_sentences ((extract_sentences a).2 ++ b)).1 ∧
      ∃ w, (∀ c ∈ w, isSpace c = true) ∧
        (extract_sentences ((extract_sentences a).2 ++ b)).2
          = w ++ (extract_sentences (a ++ b)).2 := by
  intro n
  induction n with
  | zero =>
    intro a b ha
    have : a = [] := List.length_eq_zero.mp (Nat.le_zero.mp ha)
    subst this
    rw [extract_sentences_nil]
    exact ⟨by simp, [], by simp, by simp⟩
  | succ n ih =>
    intro a b ha
    cases hm : sentenceEndAux a with
    | none =>
      rw [extract_sentences_none hm]
      exact ⟨by simp, [], by simp, by simp⟩
    | some e =>
      have hbounds := sentenceEndAux_pos hm
      obtain ⟨k, hk, hcond⟩ := sentenceEndAux_append b hm
      rw [extract_sentences_some hm, extract_sentences_some hk]
      rcases hcond with hk0 | ⟨hlen, hws⟩
      · subst hk0
        have htake : (a ++ b).take (e + 0) = a.take e := by
          rw [Nat.add_zero]
          exact List.take_append_of_le_length hbounds.2
        have hdrop : (a ++ b).drop (e + 0) = a.drop e ++ b := by
          rw [Nat.add_zero]
          exact List.drop_append_of_le_length hbounds.2
        rw [htake, hdrop]
        have hrec := ih (a.drop e) b (by simp [List.length_drop]; omega)
        obtain ⟨h1, w, hw, h2⟩ := hrec
        constructor
        · simp only [h1]
          by_cases hcl : clean_for_tts (stripWs (a.take e)) = []
          · rw [if_pos hcl, if_pos hcl]
          · rw [if_neg hcl, if_neg hcl]
            simp
        · exact ⟨w, hw, h2⟩
      · subst hws
        -- the greedy whitespace run of the match extends into b
        have he_len : e = a.length := hlen
        have htake : (a ++ b).take (e + wsRun b) = a ++ b.take (wsRun b) := by
          rw [he_len, List.take_append]
        have hdrop : (a ++ b).drop (e + wsRun b) = b.drop (wsRun b) := by
          rw [he_len, List.drop_append]
        have htake_a : a.take e = a := by rw [he_len]; exact List.take_length a
        have hdrop_a : a.drop e = [] := by rw [he_len]; exact List.drop_length a
        rw [htake, hdrop, htake_a, hdrop_a, extract_sentences_nil]
        simp only [List.nil_append]
        have hstrip : stripWs (a ++ b.take (wsRun b)) = stripWs a :=
          stripWs_append_ws a (wsRun_take_ws b)
        rw [hstrip]
        have hA := extract_ws_prepend (b.take (wsRun b)) (b.drop (wsRun b)) (wsRun_take_ws b)
        rw [List.take_append_drop] at hA
        obtain ⟨h1, w, hw, h2⟩ := hA
        constructor
        · rw [h1]
          by_cases hcl : clean_for_tts (stripWs a) = []
          · rw [if_pos hcl, if_pos hcl]
            simp
          · rw [if_neg hcl, if_neg hcl]
            simp
        · exact ⟨w, hw, h2⟩

theorem extract_split (a b : Str) :
    (extract_sentences (a ++ b)).1
        = (extract_sentences a).1 ++ (extract_sentences ((extract_sentences a).2 ++ b)).1 ∧
    ∃ w, (∀ c ∈ w, isSpace c = true) ∧
      (extract_sentences ((extract_sentences a).2 ++ b)).2
        = w ++ (extract_sentences (a ++ b)).2 :=
  extract_split_aux a.length a b (Nat.le_refl _)

theorem extract_rem_no_match_aux :
    ∀ (n : Nat) (s : Str), s.length ≤ n →
      sentenceEndAux (extract_sentences s).2 = none := by
  intro n
  induction n with
  | zero =>
    intro s hs
    have : s = [] := List.length_eq_zero.mp (Nat.le_zero.mp hs)
    subst this
    rw [extract_sentences_nil]
    simp [sentenceEndAux]
  | succ n ih =>
    intro s hs
    cases hm : sentenceEndAux s with
    | none => rw [extract_sentences_none hm]; exact hm
    | some e =>
      rw [extract_sentences_some hm]
      have hb := sentenceEndAux_pos hm
      exact ih (s.drop e) (by simp only [List.length_drop]; omega)

theorem extract_rem_no_match (s : Str) :
    sentenceEndAux (extract_sentences s).2 = none :=
  extract_rem_no_match_aux s.length s (Nat.le_refl _)

/-- Incremental feeding of llm.extract_sentences across chunk boundaries:
each call starts from the previous call's returned remainder with the next
chunk appended, as the producers in pipeline.py do. -/
def feedChunks : Str → List Str → List Str × Str
  | r, [] => ([], r)
  | r, chunk :: cs =>
    let p := extract_sentences (r ++ chunk)
    let q := feedChunks p.2 cs
    (p.1 ++ q.1, q.2)

/-- Final flush of a remainder at end of stream, as in the producers' finally
blocks: strip, clean for TTS, and emit only when non-empty. -/
def flushRemainder (r : Str) : List Str :=
  if stripWs r = [] then []
  else if clean_for_tts (stripWs r) = [] then []
  else [clean_for_tts (stripWs r)]

theorem feedChunks_spec :
    ∀ (cs : List Str) (r : Str), sentenceEndAux r = none →
      (feedChunks r cs).1 = (extract_sentences (r ++ cs.flatten)).1 ∧
      ∃ w, (∀ c ∈ w, isSpace c = true) ∧
        (feedChunks r cs).2 = w ++ (extract_sentences (r ++ cs.flatten)).2 := by
  intro cs
  induction cs with
  | nil =>
    intro r hr
    simp only [feedChunks, List.flatten_nil, List.append_nil]
    rw [extract_sentences_none hr]
    exact ⟨rfl, [], by simp, by simp⟩
  | cons chunk cs ih =>
    intro r hr
    simp only [feedChunks, List.flatten_cons]
    have hassoc : r ++ (chunk ++ cs.flatten) = (r ++ chunk) ++ cs.flatten := by
      rw [List.append_assoc]
    rw [hassoc]
    have hsplit := extract_split (r ++ chunk) cs.flatten
    obtain ⟨hs1, w, hw, hs2⟩ := hsplit
    have hrec := ih (extract_sentences (r ++ chunk)).2 (extract_rem_no_match (r ++ chunk))
    obtain ⟨h1, w', hw', h2⟩ := hrec
    constructor
    · rw [hs1, h1]
    · refine ⟨w' ++ w, ?_, ?_⟩
      · intro c hc
        rcases List.mem_append.mp hc with hc | hc
        · exact hw' c hc
        · exact hw c hc
      · rw [h2, hs2, ← List.append_assoc]

theorem flushRemainder_ws_prepend {w : Str} (r : Str) (hw : ∀ c ∈ w, isSpace c = true) :
    flushRemainder (w ++ r) = flushRemainder r := by
  unfold flushRemainder
  rw [stripWs_ws_append r hw]

/-- Fragments produced by feeding the whole text at once and flushing. -/
def segmentOneShot (T : Str) : List Str :=
  (extract_sentences T).1 ++ flushRemainder (extract_sentences T).2

/-- Fragments produced by feeding the text chunk by chunk and flushing. -/
def segmentIncremental (chunks : List Str) : List Str :=
  (feedChunks [] chunks).1 ++ flushRemainder (feedChunks [] chunks).2

/-- C3: feeding any chunking of a text incrementally through
llm.extract_sentences (each call restarting from the previous remainder, with
a final flush of the cleaned non-empty remainder) emits exactly the same
fragment list as feeding the whole text in one call with the same flush; in
particular the set of emitted fragments is chunk-boundary independent. -/
theorem claim_C3_chunk_boundary_independence (chunks : List Str) :
    segmentIncremental chunks = segmentOneShot chunks.flatten ∧
    ∀ f, f ∈ segmentIncremental chunks ↔ f ∈ segmentOneShot chunks.flatten := by
  have hspec := feedChunks_spec chunks [] (by simp [sentenceEndAux])
  obtain ⟨h1, w, hw, h2⟩ := hspec
  simp only [List.nil_append] at h1 h2
  have heq : segmentIncremental chunks = segmentOneShot chunks.flatten := by
    unfold segmentIncremental segmentOneShot
    rw [h1, h2, flushRemainder_ws_prepend _ hw]
  exact ⟨heq, fun f => by rw [heq]⟩

/-- Position i of the buffer matches the SENTENCE_END pattern: a terminator
character followed by a whitespace character, or a newline. -/
def matchesAt (s : Str) (i : Nat) : Prop :=
  (∃ c, s.get? i = some c ∧ isTermChar c = true ∧
    ∃ d, s.get? (i + 1) = some d ∧ isSpace d = true) ∨
  s.get? i = some '\n'

theorem sentenceEndAux_none_iff (s : Str) :
    sentenceEndAux s = none ↔ ∀ i, ¬ matchesAt s i := by
  induction s with
  | nil =>
    simp only [sentenceEndAux, true_iff]
    intro i h
    rcases h with ⟨c, hc, _⟩ | hc <;> simp [List.get?] at hc
  | cons c cs ih =>
    constructor
    · intro h i hi
      simp only [sentenceEndAux] at h
      by_cases h1 : (isTermChar c && firstIsSpace cs) = true
      · rw [if_pos h1] at h; cases h
      · rw [if_neg h1] at h
        by_cases h2 : c = '\n'
        · rw [if_pos h2] at h; cases h
        · rw [if_neg h2] at h
          have hcs : sentenceEndAux cs = none := by
            cases he : sentenceEndAux cs with
            | none => rfl
            | some e => rw [he] at h; simp at h
          cases i with
          | zero =>
            rcases hi with ⟨c', hc', hterm, d, hd, hdws⟩ | hc'
            · simp only [List.get?] at hc' hd
              injection hc' with hc'
              subst hc'
              have : firstIsSpace cs = true := by
                cases cs with
                | nil => simp [List.get?] at hd
                | cons d' ds =>
                  simp only [List.get?] at hd
                  injection hd with hd
                  subst hd
                  exact hdws
              simp [hterm, this] at h1
            · simp only [List.get?] at hc'
              injection hc' with hc'
              exact h2 hc'
          | succ i =>
            have := (ih.mp hcs) i
            apply this
            rcases hi with ⟨c', hc', hterm, d, hd, hdws⟩ | hc'
            · exact Or.inl ⟨c', hc', hterm, d, hd, hdws⟩
            · exact Or.inr hc'
    · intro h
      simp only [sentenceEndAux]
      have h1 : (isTermChar c && firstIsSpace cs) = false := by
        by_contra hcon
        have h1' : (isTermChar c && firstIsSpace cs) = true := by
          revert hcon
          cases (isTermChar c && firstIsSpace cs) <;> simp
        simp only [Bool.and_eq_true] at h1'
        apply h 0
        refine Or.inl ⟨c, rfl, h1'.1, ?_⟩
        cases cs with
        | nil => simp [firstIsSpace] at h1'
        | cons d ds => exact ⟨d, rfl, h1'.2⟩
      rw [if_neg (by simp [h1])]
      have h2 : c ≠ '\n' := by
        intro hc
        exact h 0 (Or.inr (by rw [hc]; rfl))
      rw [if_neg h2]
      have hcs : sentenceEndAux cs = none := by
        apply ih.mpr
        intro i hi
        apply h (i + 1)
        rcases hi with ⟨c', hc', hterm, d, hd, hdws⟩ | hc'
        · exact Or.inl ⟨c', hc', hterm, d, hd, hdws⟩
        · exact Or.inr hc'
      rw [hcs]
      rfl

/-- C10: the remainder returned by llm.extract_sentences never contains a match
of the SENTENCE_END pattern: no position holds a terminator followed by
whitespace or a newline, so every terminated sentence present in the buffer is
carved off in that same call. -/
theorem claim_C10_remainder_has_no_terminator (buffer : Str) :
    ∀ i, ¬ matchesAt (extract_sentences buffer).2 i :=
  (sentenceEndAux_none_iff _).mp (extract_rem_no_match buffer)

/-- Python str.lower applied characterwise. -/
def toLowerStr (s : Str) : Str := s.map Char.toLower

/-- Python str.split() with no argument: split on whitespace runs, dropping
empty words. -/
def splitWs (s : Str) : List Str :=
  (s.splitOnP (fun c => isSpace c)).filter (fun w => w ≠ [])

/-- Model of search.query_similarity: word-overlap count over the larger of
the two lowercase whitespace-tokenized word sets (0 if either is empty). -/
def query_similarity (q1 q2 : Str) : ℚ :=
  let w1 := (splitWs (toLowerStr q1)).toFinset
  let w2 := (splitWs (toLowerStr q2)).toFinset
  if w1 = ∅ ∨ w2 = ∅ then 0
  else (((w1 ∩ w2).card : ℕ) : ℚ) / ((max w1.card w2.card : ℕ) : ℚ)

/-- Modelled from the spec: the Jaccard ratio of the two lowercase
whitespace-tokenized word sets, intersection size over union size,
0 if either side is empty.  This follows the spec's words, for comparison
with query_similarity as the source defines it. -/
def jaccardSimilarity (q1 q2 : Str) : ℚ :=
  let w1 := (splitWs (toLowerStr q1)).toFinset
  let w2 := (splitWs (toLowerStr q2)).toFinset
  if w1 = ∅ ∨ w2 = ∅ then 0
  else (((w1 ∩ w2).card : ℕ) : ℚ) / (((w1 ∪ w2).card : ℕ) : ℚ)

theorem query_similarity_card_eq (q1 q2 : Str)
    (h1 : (splitWs (toLowerStr q1)).toFinset ≠ ∅)
    (h2 : (splitWs (toLowerStr q2)).toFinset ≠ ∅) :
    query_similarity q1 q2 =
      ((((splitWs (toLowerStr q1)).toFinset ∩ (splitWs (toLowerStr q2)).toFinset).card : ℕ) : ℚ) /
        (((max (splitWs (toLowerStr q1)).toFinset.card
            (splitWs (toLowerStr q2)).toFinset.card : ℕ)) : ℚ) := by
  unfold query_similarity
  rw [if_neg (by tauto)]

/-- C1 counterexample: on the queries "a b" and "b c" the code's similarity is
1/2 (overlap 1 over max size 2) while the Jaccard ratio is 1/3 (overlap 1 over
union size 3), so query_similarity does not equal the Jaccard ratio. -/
theorem claim_C1_counterexample :
    query_similarity "a b".toList "b c".toList = 1 / 2 ∧
    jaccardSimilarity "a b".toList "b c".toList = 1 / 3 ∧
    query_similarity "a b".toList "b c".toList ≠
      jaccardSimilarity "a b".toList "b c".toList := by
  have hw1 : (splitWs (toLowerStr "a b".toList)).toFinset = {"a".toList, "b".toList} := by decide
  have hw2 : (splitWs (toLowerStr "b c".toList)).toFinset = {"b".toList, "c".toList} := by decide
  have hcap : ((splitWs (toLowerStr "a b".toList)).toFinset ∩
      (splitWs (toLowerStr "b c".toList)).toFinset).card = 1 := by
    rw [hw1, hw2]; decide
  have hcup : ((splitWs (toLowerStr "a b".toList)).toFinset ∪
      (splitWs (toLowerStr "b c".toList)).toFinset).card = 3 := by
    rw [hw1, hw2]; decide
  have hc1 : (splitWs (toLowerStr "a b".toList)).toFinset.card = 2 := by rw [hw1]; decide
  have hc2 : (splitWs (toLowerStr "b c".toList)).toFinset.card = 2 := by rw [hw2]; decide
  have hne1 : (splitWs (toLowerStr "a b".toList)).toFinset ≠ ∅ := by rw [hw1]; decide
  have hne2 : (splitWs (toLowerStr "b c".toList)).toFinset ≠ ∅ := by rw [hw2]; decide
  have hq : query_similarity "a b".toList "b c".toList = 1 / 2 := by
    rw [query_similarity_card_eq _ _ hne1 hne2, hcap, hc1, hc2]
    norm_num
  have hj : jaccardSimilarity "a b".toList "b c".toList = 1 / 3 := by
    unfold jaccardSimilarity
    rw [if_neg (by tauto), hcap, hcup]
    norm_num
  refine ⟨hq, hj, ?_⟩
  rw [hq, hj]
  norm_num

/-- C1 as amended: query_similarity is the overlap count divided by the larger
of the two word-set sizes (not by the union size); it is 0.0 whenever either
word set is empty, and it is symmetric. -/
theorem claim_C1_amended (q1 q2 : Str) :
    (query_similarity q1 q2 = query_similarity q2 q1) ∧
    (((splitWs (toLowerStr q1)).toFinset = ∅ ∨ (splitWs (toLowerStr q2)).toFinset = ∅) →
      query_similarity q1 q2 = 0) ∧
    ((splitWs (toLowerStr q1)).toFinset ≠ ∅ → (splitWs (toLowerStr q2)).toFinset ≠ ∅ →
      query_similarity q1 q2 =
        ((((splitWs (toLowerStr q1)).toFinset ∩ (splitWs (toLowerStr q2)).toFinset).card : ℕ) : ℚ) /
          (((max (splitWs (toLowerStr q1)).toFinset.card
              (splitWs (toLowerStr q2)).toFinset.card : ℕ)) : ℚ)) := by
  refine ⟨?_, ?_, ?_⟩
  · by_cases h1 : (splitWs (toLowerStr q1)).toFinset = ∅
    · unfold query_similarity
      rw [if_pos (Or.inl h1), if_pos (Or.inr h1)]
    · by_cases h2 : (splitWs (toLowerStr q2)).toFinset = ∅
      · unfold query_similarity
        rw [if_pos (Or.inr h2), if_pos (Or.inl h2)]
      · rw [query_similarity_card_eq _ _ h1 h2, query_similarity_card_eq _ _ h2 h1]
        rw [Finset.inter_comm, Nat.max_comm]
  · intro h
    unfold query_similarity
    rw [if_pos h]
  · exact query_similarity_card_eq q1 q2

/-- C1 witness: the amended characterization applied at concrete queries. -/
theorem claim_C1_amended_witness :
    query_similarity "a b".toList "b c".toList = query_similarity "b c".toList "a b".toList ∧
    query_similarity "a b".toList "".toList = 0 := by
  have h := claim_C1_amended "a b".toList "b c".toList
  have h2 := claim_C1_amended "a b".toList "".toList
  exact ⟨h.1, h2.2.1 (Or.inr (by decide))⟩

/-- Filler words stripped by search.clean_for_search (the FILLER_WORDS set). -/
def FILLER_WORDS : List Str :=
  ["hmm", "hm", "um", "uh", "ah", "okay", "ok", "like", "yeah", "yes", "no",
   "right", "so", "well", "actually", "basically", "you know", "i mean",
   "let me think", "wait", "hold on", "alla", "adu", "ennu", "aanu",
   "hmm.", "okay.", "yeah.", "yes.", "no.", "super", "super."].map String.toList

/-- Python str.strip with the argument ".,!?": remove those characters from
both ends. -/
def isPunct (c : Char) : Bool := c = '.' || c = ',' || c = '!' || c = '?'

def stripPunct (s : Str) : Str :=
  ((s.dropWhile (fun c => isPunct c)).reverse.dropWhile (fun c => isPunct c)).reverse

/-- Python " ".join. -/
def joinSpace : List Str → Str
  | [] => []
  | [w] => w
  | w :: ws => w ++ ' ' :: joinSpace ws

/-- Whether a word's lowercase punctuation-stripped form is in the filler set. -/
def isFillerWord (w : Str) : Bool :=
  FILLER_WORDS.contains (stripPunct (toLowerStr w))

/-- Model of search.clean_for_search: drop filler words; if the cleaned joined
result is under 5 characters, return the stripped transcript instead. -/
def clean_for_search (transcript : Str) : Str :=
  let words := splitWs transcript
  let cleaned := words.filter (fun w => !isFillerWord w)
  let result := stripWs (joinSpace cleaned)
  if result.length < 5 then stripWs transcript else result

/-- C6 counterexample: on the transcript " hi " the cleaned result "hi" is
shorter than 5 characters, and the function returns the stripped
transcript "hi", not the untouched utterance " hi ". -/
theorem claim_C6_counterexample :
    (stripWs (joinSpace ((splitWs " hi ".toList).filter (fun w => !isFillerWord w)))).length < 5 ∧
    clean_for_search " hi ".toList = "hi".toList ∧
    clean_for_search " hi ".toList ≠ " hi ".toList := by
  refine ⟨?_, ?_, ?_⟩ <;> decide

/-- C6 as amended: clean_for_search keeps exactly the words whose lowercase
form stripped of the characters ".,!?" is not in the filler list, in their
original order (the kept words form a sublist of the split transcript), and
when the cleaned result is shorter than 5 characters it falls back to the
whitespace-stripped utterance (not the untouched utterance). -/
theorem claim_C6_amended (transcript : Str) :
    ∃ kept, kept = (splitWs transcript).filter (fun w => !isFillerWord w) ∧
      kept.Sublist (splitWs transcript) ∧
      (∀ w ∈ splitWs transcript, w ∈ kept ↔ isFillerWord w = false) ∧
      clean_for_search transcript =
        (if (stripWs (joinSpace kept)).length < 5
         then stripWs transcript else stripWs (joinSpace kept)) := by
  refine ⟨(splitWs transcript).filter (fun w => !isFillerWord w), rfl, ?_, ?_, rfl⟩
  · exact List.filter_sublist _
  · intro w hw
    constructor
    · intro hmem
      have := List.of_mem_filter hmem
      simpa using this
    · intro hf
      exact List.mem_filter.mpr ⟨hw, by simp [hf]⟩

/-- Search result entries as returned by the provider. -/
structure SearchResult where
  title : String
  body : String
deriving DecidableEq

/-- Outcome of the DDGS().text provider call: a result list, or a raised
exception carrying an error message. -/
inductive ProviderOutcome
  | ok (results : List SearchResult)
  | err (msg : String)
deriving DecidableEq

/-- Model of search.web_search over the provider outcome: format the results,
report "No results found." for an empty result list, and catch any exception,
returning its text in the "Search error: ..." string. -/
def web_search : ProviderOutcome → String
  | .ok [] => "No results found."
  | .ok results =>
      String.intercalate "\n" (results.map (fun r => "- " ++ r.title ++ ": " ++ r.body))
  | .err e => "Search error: " ++ e

/-- C9: web_search always returns a string: formatted summaries on success,
the fixed no-results text on an empty result list, and a string containing the
provider's error text on failure, so the failure is passed downstream as the
results text rather than raised. -/
theorem claim_C9_web_search_total (o : ProviderOutcome) :
    (∀ e, o = .err e → web_search o = "Search error: " ++ e) ∧
    (o = .ok [] → web_search o = "No results found.") ∧
    (∀ rs, rs ≠ [] → o = .ok rs →
      web_search o =
        String.intercalate "\n" (rs.map (fun r => "- " ++ r.title ++ ": " ++ r.body))) := by
  refine ⟨?_, ?_, ?_⟩
  · intro e he
    subst he
    rfl
  · intro he
    subst he
    rfl
  · intro rs hrs ho
    subst ho
    cases rs with
    | nil => exact absurd rfl hrs
    | cons r rest => rfl

/-- C9 witness: a failing provider call surfaces its error text in the
returned string, and an empty result list yields the fixed text. -/
theorem claim_C9_witness :
    web_search (.err "timeout") = "Search error: timeout" ∧
    web_search (.ok []) = "No results found." :=
  ⟨(claim_C9_web_search_total _).1 "timeout" rfl,
   (claim_C9_web_search_total _).2.1 rfl⟩

/-- Roles of conversation messages. -/
inductive Role
  | system
  | user
  | assistant
deriving DecidableEq, Repr

/-- One entry of the conversation history. -/
structure Message where
  role : Role
  content : String
deriving DecidableEq, Repr

/-- Opening line of config.SYSTEM_PROMPT (the content is irrelevant to the
history-shape claims; only the fixed system role matters). -/
def SYSTEM_PROMPT : String :=
  "You are Baatein, a friendly voice assistant designed for natural spoken conversation."

/-- The fixed system message heading config.conversation_history. -/
def systemMessage : Message := { role := .system, content := SYSTEM_PROMPT }

/-- The initial per-session conversation history. -/
def initial_history : List Message := [systemMessage]

/-- The merge loop of config.sanitize_history from index 1 on: the current
message absorbs following same-role messages (contents joined with a space),
re-comparing at the same position after each merge. -/
def mergeInto (cur : Message) : List Message → List Message
  | [] => [cur]
  | m :: rest =>
    if cur.role = m.role then
      mergeInto { role := cur.role, content := cur.content ++ " " ++ m.content } rest
    else
      cur :: mergeInto m rest

def mergeAdjacent : List Message → List Message
  | [] => []
  | m :: rest => mergeInto m rest

/-- Model of config.sanitize_history: the loop starts at index 1, so the head
(the system message) is never merged into. -/
def sanitize_history : List Message → List Message
  | [] => []
  | m0 :: rest => m0 :: mergeAdjacent rest

/-- The user prompt that pipeline.run builds around the search results for the
second generation round. -/
def searchPrompt (search_query search_results : String) : String :=
  "Here are the web search results for '" ++ search_query ++ "':\n\n" ++
    search_results ++ "\n\n" ++
    "Synthesize a comprehensive and natural answer for speaking aloud. " ++
    "Do NOT say 'Here is what I found'. Just give the detailed answer."

/-- The exit paths of pipeline.run, as they affect the conversation history.
Constructors carry the strings produced on that path:
  - cancelledAfterStreaming: cancel observed right after the producer/consumer
    gather (or at llm_done); the turn pops its user message.
  - directFinish: the non-search path (including a detected directive whose
    query pattern fails to match): commit the response, or pop the user
    message when the response text is empty.
  - searchCancelledBeforeResults: cancel observed before the second round; the
    user message is popped.
  - searchCancelledMid: cancel observed after the two scratch messages were
    appended and popped again; the user message is then popped.
  - searchFinish: full search branch: append first-leg assistant text and the
    results prompt, run the second round, pop both scratch messages, then
    commit the second response (or pop the user message if it is empty).
  - taskAborted: exceptional abort with no rollback: pipeline.run has no
    try/finally around its history mutations, so a hard task cancel (the
    server forces current_task.cancel() after its 3-second wait bound) raising
    CancelledError at an await point, or an exception from a websocket send,
    exits the turn with the appended user message still in place.
  - taskAbortedInSearch: the same exceptional abort landing while the two
    scratch messages of the search branch (first-leg assistant text and the
    results prompt) are appended and not yet popped. -/
inductive TurnExit
  | cancelledAfterStreaming
  | directFinish (full_response : String)
  | searchCancelledBeforeResults (full_response : String)
  | searchCancelledMid (full_response search_query search_results : String)
  | searchFinish (full_response search_query search_results second_response : String)
  | taskAborted
  | taskAbortedInSearch (full_response search_query search_results : String)

/-- Net effect of one call of pipeline.run on the conversation history:
sanitize, append the user message, and then follow the given exit path with
the exact append/pop sequence of the source. -/
def runTurn (h : List Message) (transcript : String) : TurnExit → List Message
  | .cancelledAfterStreaming =>
    (sanitize_history h ++ [Message.mk .user transcript]).dropLast
  | .directFinish r =>
    let h2 := sanitize_history h ++ [Message.mk .user transcript]
    if r = "" then h2.dropLast else h2 ++ [Message.mk .assistant r]
  | .searchCancelledBeforeResults _ =>
    (sanitize_history h ++ [Message.mk .user transcript]).dropLast
  | .searchCancelledMid r1 q res =>
    let h2 := sanitize_history h ++ [Message.mk .user transcript]
    let h3 := h2 ++ [Message.mk .assistant r1, Message.mk .user (searchPrompt q res)]
    h3.dropLast.dropLast.dropLast
  | .searchFinish r1 q res r2 =>
    let h2 := sanitize_history h ++ [Message.mk .user transcript]
    let h3 := h2 ++ [Message.mk .assistant r1, Message.mk .user (searchPrompt q res)]
    let h4 := h3.dropLast.dropLast
    if r2 = "" then h4.dropLast else h4 ++ [Message.mk .assistant r2]
  | .taskAborted =>
    sanitize_history h ++ [Message.mk .user transcript]
  | .taskAbortedInSearch r1 q res =>
    sanitize_history h ++ [Message.mk .user transcript,
      Message.mk .assistant r1, Message.mk .user (searchPrompt q res)]

/-- Conversation histories reachable from the initial history by turns of
pipeline.run, exceptional aborts included. -/
inductive ReachableHistory : List Message → Prop
  | init : ReachableHistory initial_history
  | step (h : List Message) (t : String) (ex : TurnExit) :
      ReachableHistory h → ReachableHistory (runTurn h t ex)

/-- Exits on which pipeline.run completes through its own control flow
(committing or rolling back): everything except the exceptional aborts that
skip the rollback pops. -/
def CleanExit : TurnExit → Prop
  | .taskAborted => False
  | .taskAbortedInSearch _ _ _ => False
  | _ => True

/-- Conversation histories reachable using only the non-exceptional exits. -/
inductive ReachableHistoryClean : List Message → Prop
  | init : ReachableHistoryClean initial_history
  | step (h : List Message) (t : String) (ex : TurnExit) (hex : CleanExit ex) :
      ReachableHistoryClean h → ReachableHistoryClean (runTurn h t ex)

/-- Shape of every reachable history tail: a sequence of complete
user/assistant pairs. -/
inductive PairedUA : List Message → Prop
  | nil : PairedUA []
  | snoc (l : List Message) (u a : String) :
      PairedUA l →
      PairedUA (l ++ [Message.mk .user u, Message.mk .assistant a])

/-- A history is good when it is the system message followed by complete
user/assistant pairs. -/
def GoodHistory (h : List Message) : Prop :=
  ∃ l, h = systemMessage :: l ∧ PairedUA l

theorem pairedUA_chain_last {l : List Message} (hp : PairedUA l) :
    List.Chain' (fun m1 m2 => m1.role ≠ m2.role) l ∧
    (∀ m ∈ l.getLast?, m.role = Role.assistant) ∧
    (∀ m ∈ l.head?, m.role = Role.user) ∧
    (∀ m ∈ l, m.role = Role.user ∨ m.role = Role.assistant) := by
  induction hp with
  | nil => simp
  | snoc l u a _ ih =>
    obtain ⟨hchain, hlast, hhead, hmem⟩ := ih
    refine ⟨?_, ?_, ?_, ?_⟩
    · rw [List.chain'_append]
      refine ⟨hchain, by simp, ?_⟩
      intro x hx y hy
      have hx' := hlast x hx
      simp only [List.head?_cons, Option.mem_def, Option.some.injEq] at hy
      subst hy
      simp [hx']
    · intro m hm
      rw [show (l ++ [Message.mk .user u, Message.mk .assistant a])
          = (l ++ [Message.mk .user u]) ++ [Message.mk .assistant a] from by simp] at hm
      rw [List.getLast?_concat] at hm
      simp only [Option.mem_def, Option.some.injEq] at hm
      subst hm
      rfl
    · intro m hm
      cases l with
      | nil =>
        simp only [List.nil_append, List.head?_cons, Option.mem_def, Option.some.injEq] at hm
        subst hm
        rfl
      | cons x xs =>
        simp only [List.cons_append, List.head?_cons, Option.mem_def, Option.some.injEq] at hm
        subst hm
        exact hhead x (by simp)
    · intro m hm
      rcases List.mem_append.mp hm with hm | hm
      · exact hmem m hm
      · simp only [List.mem_cons, List.mem_singleton] at hm
        rcases hm with hm | hm | hm
        · subst hm; exact Or.inl rfl
        · subst hm; exact Or.inr rfl
        · cases hm

/-- On a tail whose adjacent roles already differ, the merge loop is the
identity. -/
theorem mergeInto_id :
    ∀ (l : List Message) (cur : Message),
      List.Chain' (fun m1 m2 => m1.role ≠ m2.role) (cur :: l) →
      mergeInto cur l = cur :: l := by
  intro l
  induction l with
  | nil => intro cur _; rfl
  | cons m rest ih =>
    intro cur hc
    have hne : cur.role ≠ m.role := (List.chain'_cons.mp hc).1
    simp only [mergeInto]
    rw [if_neg hne]
    rw [ih m (List.chain'_cons.mp hc).2]

theorem mergeAdjacent_id (l : List Message)
    (hc : List.Chain' (fun m1 m2 => m1.role ≠ m2.role) l) :
    mergeAdjacent l = l := by
  cases l with
  | nil => rfl
  | cons m rest => exact mergeInto_id rest m hc

theorem sanitize_cons (m0 : Message) (rest : List Message) :
    sanitize_history (m0 :: rest) = m0 :: mergeAdjacent rest := rfl

theorem sanitize_good {h : List Message} (hg : GoodHistory h) :
    sanitize_history h = h := by
  obtain ⟨l, rfl, hp⟩ := hg
  rw [sanitize_cons, mergeAdjacent_id l (pairedUA_chain_last hp).1]

theorem dropLast_snoc {α : Type} (l : List α) (a : α) : (l ++ [a]).dropLast = l := by
  simp

theorem dropLast_pair {α : Type} (l : List α) (a b : α) :
    (l ++ [a, b]).dropLast.dropLast = l := by
  rw [show l ++ [a, b] = (l ++ [a]) ++ [b] from by simp, dropLast_snoc, dropLast_snoc]

/-- Each turn of pipeline.run that exits through its own control flow
(committing or rolling back) preserves the good-history shape. -/
theorem runTurn_preserves_good (h : List Message) (t : String) (ex : TurnExit)
    (hex : CleanExit ex) (hg : GoodHistory h) : GoodHistory (runTurn h t ex) := by
  obtain ⟨l, hl, hp⟩ := hg
  have hs : sanitize_history h = h := sanitize_good ⟨l, hl, hp⟩
  cases ex with
  | cancelledAfterStreaming =>
    simp only [runTurn, hs, dropLast_snoc]
    exact ⟨l, hl, hp⟩
  | directFinish r =>
    simp only [runTurn, hs]
    by_cases hr : r = ""
    · rw [if_pos hr, dropLast_snoc]
      exact ⟨l, hl, hp⟩
    · rw [if_neg hr]
      refine ⟨l ++ [Message.mk .user t, Message.mk .assistant r],
        ?_, PairedUA.snoc l t r hp⟩
      subst hl
      simp
  | searchCancelledBeforeResults r1 =>
    simp only [runTurn, hs, dropLast_snoc]
    exact ⟨l, hl, hp⟩
  | searchCancelledMid r1 q res =>
    simp only [runTurn, hs]
    rw [dropLast_pair, dropLast_snoc]
    exact ⟨l, hl, hp⟩
  | searchFinish r1 q res r2 =>
    simp only [runTurn, hs]
    rw [dropLast_pair]
    by_cases hr : r2 = ""
    · rw [if_pos hr, dropLast_snoc]
      exact ⟨l, hl, hp⟩
    · rw [if_neg hr]
      refine ⟨l ++ [Message.mk .user t, Message.mk .assistant r2],
        ?_, PairedUA.snoc l t r2 hp⟩
      subst hl
      simp
  | taskAborted => exact hex.elim
  | taskAbortedInSearch r1 q res => exact hex.elim

theorem reachable_clean_good {h : List Message} (hr : ReachableHistoryClean h) :
    GoodHistory h := by
  induction hr with
  | init => exact ⟨[], rfl, PairedUA.nil⟩
  | step h t ex hex _ ih => exact runTurn_preserves_good h t ex hex ih

/-- The merged list always starts with a message of the current role. -/
theorem mergeInto_head_role :
    ∀ (l : List Message) (cur : Message),
      ∃ m rest, mergeInto cur l = m :: rest ∧ m.role = cur.role := by
  intro l
  induction l with
  | nil => intro cur; exact ⟨cur, [], rfl, rfl⟩
  | cons m0 rest ih =>
    intro cur
    simp only [mergeInto]
    by_cases hr : cur.role = m0.role
    · rw [if_pos hr]
      obtain ⟨m, r, hmr, hrole⟩ := ih _
      exact ⟨m, r, hmr, hrole⟩
    · rw [if_neg hr]
      exact ⟨cur, mergeInto m0 rest, rfl, rfl⟩

/-- The merge loop always produces a list with no adjacent same-role pair:
this is what sanitization restores at the start of each turn. -/
theorem chain'_mergeInto :
    ∀ (l : List Message) (cur : Message),
      List.Chain' (fun m1 m2 => m1.role ≠ m2.role) (mergeInto cur l) := by
  intro l
  induction l with
  | nil => intro cur; simp [mergeInto]
  | cons m0 rest ih =>
    intro cur
    simp only [mergeInto]
    by_cases hr : cur.role = m0.role
    · rw [if_pos hr]
      exact ih _
    · rw [if_neg hr]
      rw [List.chain'_cons']
      refine ⟨?_, ih m0⟩
      intro b hb
      obtain ⟨m, r, hmr, hrole⟩ := mergeInto_head_role rest m0
      rw [hmr] at hb
      simp only [List.head?_cons, Option.mem_def, Option.some.injEq] at hb
      subst hb
      rw [hrole]
      exact hr

theorem chain'_mergeAdjacent (l : List Message) :
    List.Chain' (fun m1 m2 => m1.role ≠ m2.role) (mergeAdjacent l) := by
  cases l with
  | nil => simp [mergeAdjacent]
  | cons cur rest => exact chain'_mergeInto rest cur

/-- Merging never introduces a new role. -/
theorem mergeInto_roles (P : Role → Prop) :
    ∀ (l : List Message) (cur : Message), P cur.role → (∀ m ∈ l, P m.role) →
      ∀ m ∈ mergeInto cur l, P m.role := by
  intro l
  induction l with
  | nil =>
    intro cur hcur _ m hm
    simp only [mergeInto, List.mem_singleton] at hm
    subst hm
    exact hcur
  | cons m0 rest ih =>
    intro cur hcur hl m hm
    simp only [mergeInto] at hm
    by_cases hr : cur.role = m0.role
    · rw [if_pos hr] at hm
      exact ih { role := cur.role, content := cur.content ++ " " ++ m0.content }
        hcur (fun x hx => hl x (by simp [hx])) m hm
    · rw [if_neg hr] at hm
      rcases List.mem_cons.mp hm with hm | hm
      · subst hm; exact hcur
      · exact ih m0 (hl m0 (by simp)) (fun x hx => hl x (by simp [hx])) m hm

/-- Weak shape invariant of every reachable history tail, exceptional aborts
included: only user/assistant roles appear after the system message, and the
first entry (when present) is a user message. -/
def InvTail (l : List Message) : Prop :=
  (∀ m ∈ l, m.role = Role.user ∨ m.role = Role.assistant) ∧
  (∀ m ∈ l.head?, m.role = Role.user)

theorem invTail_mergeAdjacent {l : List Message} (h : InvTail l) :
    InvTail (mergeAdjacent l) := by
  cases l with
  | nil => exact h
  | cons cur rest =>
    constructor
    · exact mergeInto_roles (fun r => r = Role.user ∨ r = Role.assistant) rest cur
        (h.1 cur (by simp)) (fun m hm => h.1 m (by simp [hm]))
    · intro m hm
      obtain ⟨m0, r, hmr, hrole⟩ := mergeInto_head_role rest cur
      simp only [mergeAdjacent, hmr, List.head?_cons, Option.mem_def,
        Option.some.injEq] at hm
      subst hm
      rw [hrole]
      exact h.2 cur (by simp)

theorem invTail_append {l : List Message} (h : InvTail l) (ms : List Message)
    (hms : ∀ m ∈ ms, m.role = Role.user ∨ m.role = Role.assistant)
    (hhead : ∀ m ∈ ms.head?, m.role = Role.user) :
    InvTail (l ++ ms) := by
  constructor
  · intro m hm
    rcases List.mem_append.mp hm with hm | hm
    · exact h.1 m hm
    · exact hms m hm
  · intro m hm
    cases l with
    | nil => exact hhead m (by simpa using hm)
    | cons x xs =>
      simp only [List.cons_append, List.head?_cons, Option.mem_def,
        Option.some.injEq] at hm
      subst hm
      exact h.2 x (by simp)

theorem invTail_snoc_user {l : List Message} (h : InvTail l) (u : String) :
    InvTail (l ++ [Message.mk .user u]) := by
  refine invTail_append h _ ?_ ?_
  · intro m hm
    simp only [List.mem_singleton] at hm
    subst hm
    exact Or.inl rfl
  · intro m hm
    simp only [List.head?_cons, Option.mem_def, Option.some.injEq] at hm
    subst hm
    rfl

theorem invTail_snoc_pair {l : List Message} (h : InvTail l) (u a : String) :
    InvTail (l ++ [Message.mk .user u, Message.mk .assistant a]) := by
  refine invTail_append h _ ?_ ?_
  · intro m hm
    simp only [List.mem_cons, List.mem_singleton] at hm
    rcases hm with hm | hm | hm
    · subst hm; exact Or.inl rfl
    · subst hm; exact Or.inr rfl
    · cases hm
  · intro m hm
    simp only [List.head?_cons, Option.mem_def, Option.some.injEq] at hm
    subst hm
    rfl

theorem invTail_snoc_triple {l : List Message} (h : InvTail l) (u a u2 : String) :
    InvTail (l ++ [Message.mk .user u, Message.mk .assistant a, Message.mk .user u2]) := by
  refine invTail_append h _ ?_ ?_
  · intro m hm
    simp only [List.mem_cons, List.mem_singleton] at hm
    rcases hm with hm | hm | hm | hm
    · subst hm; exact Or.inl rfl
    · subst hm; exact Or.inr rfl
    · subst hm; exact Or.inl rfl
    · cases hm
  · intro m hm
    simp only [List.head?_cons, Option.mem_def, Option.some.injEq] at hm
    subst hm
    rfl

/-- Every exit of pipeline.run, exceptional aborts included, preserves the
weak shape invariant. -/
theorem runTurn_preserves_inv (h : List Message) (t : String) (ex : TurnExit)
    (hg : ∃ l, h = systemMessage :: l ∧ InvTail l) :
    ∃ l, runTurn h t ex = systemMessage :: l ∧ InvTail l := by
  obtain ⟨l, rfl, hinv⟩ := hg
  have hs : sanitize_history (systemMessage :: l)
      = systemMessage :: mergeAdjacent l := sanitize_cons _ _
  have hml : InvTail (mergeAdjacent l) := invTail_mergeAdjacent hinv
  cases ex with
  | cancelledAfterStreaming =>
    refine ⟨mergeAdjacent l, ?_, hml⟩
    simp only [runTurn, hs]
    rw [show systemMessage :: mergeAdjacent l ++ [Message.mk .user t]
        = (systemMessage :: mergeAdjacent l) ++ [Message.mk .user t] from rfl,
      dropLast_snoc]
  | directFinish r =>
    simp only [runTurn, hs]
    by_cases hr : r = ""
    · rw [if_pos hr]
      refine ⟨mergeAdjacent l, ?_, hml⟩
      rw [show systemMessage :: mergeAdjacent l ++ [Message.mk .user t]
          = (systemMessage :: mergeAdjacent l) ++ [Message.mk .user t] from rfl,
        dropLast_snoc]
    · rw [if_neg hr]
      exact ⟨mergeAdjacent l ++ [Message.mk .user t, Message.mk .assistant r],
        by simp, invTail_snoc_pair hml t r⟩
  | searchCancelledBeforeResults r1 =>
    refine ⟨mergeAdjacent l, ?_, hml⟩
    simp only [runTurn, hs]
    rw [show systemMessage :: mergeAdjacent l ++ [Message.mk .user t]
        = (systemMessage :: mergeAdjacent l) ++ [Message.mk .user t] from rfl,
      dropLast_snoc]
  | searchCancelledMid r1 q res =>
    refine ⟨mergeAdjacent l, ?_, hml⟩
    simp only [runTurn, hs]
    rw [dropLast_pair]
    rw [show systemMessage :: mergeAdjacent l ++ [Message.mk .user t]
        = (systemMessage :: mergeAdjacent l) ++ [Message.mk .user t] from rfl,
      dropLast_snoc]
  | searchFinish r1 q res r2 =>
    simp only [runTurn, hs]
    rw [dropLast_pair]
    by_cases hr : r2 = ""
    · rw [if_pos hr]
      refine ⟨mergeAdjacent l, ?_, hml⟩
      rw [show systemMessage :: mergeAdjacent l ++ [Message.mk .user t]
          = (systemMessage :: mergeAdjacent l) ++ [Message.mk .user t] from rfl,
        dropLast_snoc]
    · rw [if_neg hr]
      exact ⟨mergeAdjacent l ++ [Message.mk .user t, Message.mk .assistant r2],
        by simp, invTail_snoc_pair hml t r2⟩
  | taskAborted =>
    simp only [runTurn, hs]
    exact ⟨mergeAdjacent l ++ [Message.mk .user t], by simp,
      invTail_snoc_user hml t⟩
  | taskAbortedInSearch r1 q res =>
    simp only [runTurn, hs]
    exact ⟨mergeAdjacent l ++ [Message.mk .user t, Message.mk .assistant r1,
      Message.mk .user (searchPrompt q res)], by simp,
      invTail_snoc_triple hml t r1 (searchPrompt q res)⟩

theorem reachable_inv {h : List Message} (hr : ReachableHistory h) :
    ∃ l, h = systemMessage :: l ∧ InvTail l := by
  induction hr with
  | init => exact ⟨[], rfl, by simp, by simp⟩
  | step h t ex _ ih => exact runTurn_preserves_inv h t ex ih

/-- C4 counterexample: a turn aborted without rollback (hard task cancel or a
mid-turn send exception) leaves its user message dangling; the next committed
turn sanitizes before appending, so the resulting reachable history holds two
adjacent user messages and the role sequence after the system message does not
strictly alternate. -/
theorem claim_C4_counterexample :
    ReachableHistory
      (runTurn (runTurn initial_history "Hello" TurnExit.taskAborted)
        "How are you" (TurnExit.directFinish "Fine")) ∧
    runTurn (runTurn initial_history "Hello" TurnExit.taskAborted)
        "How are you" (TurnExit.directFinish "Fine")
      = systemMessage :: [Message.mk .user "Hello", Message.mk .user "How are you",
          Message.mk .assistant "Fine"] ∧
    ¬ ∃ l, runTurn (runTurn initial_history "Hello" TurnExit.taskAborted)
          "How are you" (TurnExit.directFinish "Fine")
        = systemMessage :: l ∧
        List.Chain' (fun m1 m2 => m1.role ≠ m2.role) l := by
  have heq : runTurn (runTurn initial_history "Hello" TurnExit.taskAborted)
      "How are you" (TurnExit.directFinish "Fine")
      = systemMessage :: [Message.mk .user "Hello", Message.mk .user "How are you",
          Message.mk .assistant "Fine"] := by decide
  refine ⟨?_, heq, ?_⟩
  · exact ReachableHistory.step _ "How are you" (TurnExit.directFinish "Fine")
      (ReachableHistory.step _ "Hello" TurnExit.taskAborted ReachableHistory.init)
  · rintro ⟨l, hl, hchain⟩
    rw [heq] at hl
    injection hl with _ hl2
    subst hl2
    exact (List.chain'_cons.mp hchain).1 rfl

/-- C4 as amended: for histories reached only through pipeline.run's own exits
(committed, cooperatively cancelled with rollback, empty-response no-op, or
the search branch) the role sequence after the fixed system message strictly
alternates user/assistant starting with user.  Exceptional aborts (the
server's hard task cancel after its 3-second bound, or a mid-turn transport
exception) skip the rollback, so over all reachable histories only the weaker
invariant holds: every entry after the system message is a user or assistant
message, the first is a user message, and the next turn's initial sanitization
(merging adjacent same-role entries) restores a strictly alternating sequence
before anything new is appended. -/
theorem claim_C4_amended (h : List Message) :
    (ReachableHistory h →
      ∃ l, h = systemMessage :: l ∧
        (∀ m ∈ l, m.role = Role.user ∨ m.role = Role.assistant) ∧
        (∀ m ∈ l.head?, m.role = Role.user) ∧
        sanitize_history h = systemMessage :: mergeAdjacent l ∧
        List.Chain' (fun m1 m2 => m1.role ≠ m2.role) (mergeAdjacent l)) ∧
    (ReachableHistoryClean h →
      ∃ l, h = systemMessage :: l ∧
        List.Chain' (fun m1 m2 => m1.role ≠ m2.role) l ∧
        (∀ m ∈ l.head?, m.role = Role.user) ∧
        (∀ m ∈ l, m.role = Role.user ∨ m.role = Role.assistant)) := by
  constructor
  · intro hr
    obtain ⟨l, hl, hinv⟩ := reachable_inv hr
    subst hl
    exact ⟨l, rfl, hinv.1, hinv.2, sanitize_cons _ _, chain'_mergeAdjacent l⟩
  · intro hr
    obtain ⟨l, hl, hp⟩ := reachable_clean_good hr
    have hf := pairedUA_chain_last hp
    exact ⟨l, hl, hf.1, hf.2.2.1, hf.2.2.2⟩

/-- C4 witness: the weak invariant instantiated at the concrete reachable
history of the counterexample trace (an exceptional abort followed by a
commit), and the strict alternation instantiated at a committed clean turn. -/
theorem claim_C4_amended_witness :
    (∃ l, runTurn (runTurn initial_history "Hello" TurnExit.taskAborted)
          "How are you" (TurnExit.directFinish "Fine") = systemMessage :: l ∧
        (∀ m ∈ l, m.role = Role.user ∨ m.role = Role.assistant) ∧
        (∀ m ∈ l.head?, m.role = Role.user) ∧
        sanitize_history (runTurn (runTurn initial_history "Hello" TurnExit.taskAborted)
            "How are you" (TurnExit.directFinish "Fine"))
          = systemMessage :: mergeAdjacent l ∧
        List.Chain' (fun m1 m2 => m1.role ≠ m2.role) (mergeAdjacent l)) ∧
    (∃ l, runTurn initial_history "hi" (TurnExit.directFinish "Hello there.")
          = systemMessage :: l ∧
        List.Chain' (fun m1 m2 => m1.role ≠ m2.role) l ∧
        (∀ m ∈ l.head?, m.role = Role.user) ∧
        (∀ m ∈ l, m.role = Role.user ∨ m.role = Role.assistant)) := by
  constructor
  · exact (claim_C4_amended _).1
      (ReachableHistory.step _ "How are you" (TurnExit.directFinish "Fine")
        (ReachableHistory.step _ "Hello" TurnExit.taskAborted ReachableHistory.init))
  · exact (claim_C4_amended _).2
      (ReachableHistoryClean.step _ "hi" (TurnExit.directFinish "Hello there.")
        trivial ReachableHistoryClean.init)

/-- C5: a turn whose generation yields no content (empty full response)
leaves the conversation history exactly as it stood after the turn's initial
sanitization: the appended user message is popped, no assistant message is
committed, and nothing else is mutated; a non-empty response instead commits
the user/assistant pair. -/
theorem claim_C5_empty_response_no_commit (h : List Message) (t : String) :
    runTurn h t (.directFinish "") = sanitize_history h ∧
    ∀ r, r ≠ "" → runTurn h t (.directFinish r) =
      sanitize_history h ++ [Message.mk .user t, Message.mk .assistant r] := by
  constructor
  · simp [runTurn, dropLast_snoc]
  · intro r hr
    simp only [runTurn]
    rw [if_neg hr]
    simp

/-- C5 witness: the empty-response turn on the initial history returns it
unchanged, while a non-empty response commits the pair. -/
theorem claim_C5_witness :
    runTurn initial_history "hello" (.directFinish "") = sanitize_history initial_history ∧
    runTurn initial_history "hello" (.directFinish "Hi there.") =
      sanitize_history initial_history ++
        [Message.mk .user "hello", Message.mk .assistant "Hi there."] := by
  have h := claim_C5_empty_response_no_commit initial_history "hello"
  exact ⟨h.1, h.2 "Hi there." (by decide)⟩

/-- Items placed on the per-turn hand-off queue by llm_producer: a cleaned
sentence fragment, or the end sentinel (None in the source). -/
inductive QItem
  | frag (s : Str)
  | eos
deriving DecidableEq

/-- Loop state of pipeline.run's llm_producer closure. -/
structure ProducerState where
  full_response : Str
  sentence_buffer : Str
  is_search : Bool
  search_detected : Bool
  queue : List QItem
deriving DecidableEq

def initProducerState : ProducerState :=
  { full_response := [], sentence_buffer := [], is_search := false,
    search_detected := false, queue := [] }

/-- The directive marker scanned for in the accumulating response. -/
def SEARCH_MARKER : Str := "[SEARCH:".toList

/-- Substring test ("in" on Python strings). -/
def isSubstrOf (pat : Str) : Str → Bool
  | [] => pat.isEmpty
  | c :: rest => pat.isPrefixOf (c :: rest) || isSubstrOf pat rest

/-- One iteration of llm_producer's loop body for one streamed token: extend
the response; while undecided, fire the search decision on the marker, or the
direct-answer decision past 80 characters or at a sentence terminator (handing
everything so far to the segmenter); once decided direct, keep segmenting. -/
def producerStep (s : ProducerState) (content : Str) : ProducerState :=
  let full := s.full_response ++ content
  if !s.search_detected then
    if isSubstrOf SEARCH_MARKER full then
      { s with full_response := full, is_search := true, search_detected := true }
    else if full.length > 80 || (sentenceEndAux full).isSome then
      let p := extract_sentences full
      { s with full_response := full, is_search := false, search_detected := true,
               sentence_buffer := p.2, queue := s.queue ++ p.1.map QItem.frag }
    else
      { s with full_response := full }
  else if s.search_detected && !s.is_search then
    let p := extract_sentences (s.sentence_buffer ++ content)
    { s with full_response := full, sentence_buffer := p.2,
             queue := s.queue ++ p.1.map QItem.frag }
  else
    { s with full_response := full }

/-- The finally block of llm_producer: flush the cleaned non-empty remainder
buffer on the non-search path, enqueue the end sentinel, and force the
decision event set. -/
def producerFinalize (s : ProducerState) : ProducerState :=
  let q1 :=
    if !s.is_search && !(stripWs s.sentence_buffer).isEmpty then
      if clean_for_tts (stripWs s.sentence_buffer) = [] then s.queue
      else s.queue ++ [QItem.frag (clean_for_tts (stripWs s.sentence_buffer))]
    else s.queue
  { s with queue := q1 ++ [QItem.eos], search_detected := true }

/-- Model of llm_producer over the full token stream of a turn (an early
cancel simply truncates the stream; the finally block always runs). -/
def llm_producer (tokens : List Str) : ProducerState :=
  producerFinalize (tokens.foldl producerStep initProducerState)

theorem isSubstrOf_append (pat a b : Str) (h : isSubstrOf pat a = true) :
    isSubstrOf pat (a ++ b) = true := by
  induction a with
  | nil =>
    simp only [isSubstrOf, List.isEmpty_iff] at h
    subst h
    cases b with
    | nil => rfl
    | cons c rest =>
      simp only [List.nil_append, isSubstrOf]
      rw [Bool.or_eq_true]
      exact Or.inl (by simp [List.isPrefixOf])
  | cons c rest ih =>
    simp only [isSubstrOf, Bool.or_eq_true] at h
    simp only [List.cons_append, isSubstrOf, Bool.or_eq_true]
    rcases h with h | h
    · left
      rw [List.isPrefixOf_iff_prefix] at h ⊢
      exact h.trans (List.prefix_append _ _)
    · right
      exact ih h

/-- A prefix of a buffer with no SENTENCE_END match has none either. -/
theorem sentenceEndAux_none_of_append {a b : Str}
    (h : sentenceEndAux (a ++ b) = none) : sentenceEndAux a = none := by
  cases ha : sentenceEndAux a with
  | none => rfl
  | some e =>
    obtain ⟨k, hk, _⟩ := sentenceEndAux_append b ha
    rw [hk] at h
    cases h

/-- While the stream stays quiet (no marker, at most 80 characters, no
terminator), the producer loop only accumulates the response. -/
theorem producer_run_quiet :
    ∀ (tokens : List Str) (p : Str),
      isSubstrOf SEARCH_MARKER (p ++ tokens.flatten) = false →
      (p ++ tokens.flatten).length ≤ 80 →
      sentenceEndAux (p ++ tokens.flatten) = none →
      tokens.foldl producerStep
          { full_response := p, sentence_buffer := [], is_search := false,
            search_detected := false, queue := [] }
        = { full_response := p ++ tokens.flatten, sentence_buffer := [],
            is_search := false, search_detected := false, queue := [] } := by
  intro tokens
  induction tokens with
  | nil =>
    intro p _ _ _
    simp
  | cons tok rest ih =>
    intro p hmark hlen hterm
    have hflat : p ++ (tok :: rest).flatten = (p ++ tok) ++ rest.flatten := by
      simp
    rw [hflat] at hmark hlen hterm
    have hmark1 : isSubstrOf SEARCH_MARKER (p ++ tok) = false := by
      cases hq : isSubstrOf SEARCH_MARKER (p ++ tok) with
      | false => rfl
      | true =>
        rw [isSubstrOf_append _ _ rest.flatten hq] at hmark
        cases hmark
    have hlen1 : p.length + tok.length ≤ 80 := by
      simp only [List.length_append] at hlen
      omega
    have hterm1 : sentenceEndAux (p ++ tok) = none :=
      sentenceEndAux_none_of_append hterm
    simp only [List.foldl_cons]
    have hstep : producerStep
        { full_response := p, sentence_buffer := [], is_search := false,
          search_detected := false, queue := [] } tok
        = { full_response := p ++ tok, sentence_buffer := [], is_search := false,
            search_detected := false, queue := [] } := by
      unfold producerStep
      simp only [Bool.not_false, if_pos]
      rw [if_neg (by simp [hmark1])]
      rw [if_neg (by simp [hterm1, List.length_append]; omega)]
    rw [hstep]
    rw [show p ++ (tok :: rest).flatten = (p ++ tok) ++ rest.flatten from by simp]
    exact ih (p ++ tok) hmark hlen hterm

/-- C2 counterexample: on the single-token stream "Hi" (no marker, under 80
characters, no terminator) the decision defaults to direct-answer, the
accumulated text is non-empty after TTS cleaning, and yet the hand-off queue
receives only the end sentinel: the accumulated text is never enqueued. -/
theorem claim_C2_counterexample :
    isSubstrOf SEARCH_MARKER "Hi".toList = false ∧
    ("Hi".toList : Str).length ≤ 80 ∧
    sentenceEndAux "Hi".toList = none ∧
    clean_for_tts "Hi".toList = "Hi".toList ∧
    clean_for_tts "Hi".toList ≠ [] ∧
    (llm_producer ["Hi".toList]).is_search = false ∧
    (llm_producer ["Hi".toList]).queue = [QItem.eos] ∧
    ¬ QItem.frag (clean_for_tts "Hi".toList) ∈ (llm_producer ["Hi".toList]).queue := by
  refine ⟨?_, ?_, ?_, ?_, ?_, ?_, ?_, ?_⟩ <;> decide

/-- C2 as amended: when the generation stream ends before any decision
transition fires (the accumulated text never contains the directive marker,
never exceeds 80 characters, and never matches a sentence terminator), the
decision defaults to direct-answer, but nothing is flushed: the segmenter
remainder buffer is still empty, so the hand-off queue receives only the end
sentinel and the accumulated text is not enqueued. -/
theorem claim_C2_amended (tokens : List Str)
    (hmark : isSubstrOf SEARCH_MARKER tokens.flatten = false)
    (hlen : tokens.flatten.length ≤ 80)
    (hterm : sentenceEndAux tokens.flatten = none) :
    (llm_producer tokens).is_search = false ∧
    (llm_producer tokens).search_detected = true ∧
    (llm_producer tokens).full_response = tokens.flatten ∧
    (llm_producer tokens).queue = [QItem.eos] := by
  unfold llm_producer initProducerState
  rw [producer_run_quiet tokens [] (by simpa using hmark) (by simpa using hlen)
    (by simpa using hterm)]
  unfold producerFinalize
  simp [stripWs]

/-- C2 witness: the amended statement applied to the concrete stream "Hi". -/
theorem claim_C2_witness :
    (llm_producer ["Hi".toList]).is_search = false ∧
    (llm_producer ["Hi".toList]).search_detected = true ∧
    (llm_producer ["Hi".toList]).full_response = "Hi".toList ∧
    (llm_producer ["Hi".toList]).queue = [QItem.eos] := by
  have h := claim_C2_amended ["Hi".toList] (by decide) (by decide) (by decide)
  simpa using h

/-- Messages arriving from the synthesis WebSocket inside tts.stream_to_client:
an AudioOutput carrying audio data, an EventResponse with event_type "final",
or any other event. -/
inductive TtsMsg
  | audio (payload : String)
  | finalEvent
  | otherEvent
deriving DecidableEq

/-- An audio_chunk event sent to the browser, with its sequential number. -/
structure AudioChunkEvent where
  chunk_num : Nat
  audio : String
deriving DecidableEq

/-- The reader loop of tts.stream_to_client: each iteration first checks the
cancellation signal and breaks if set; an audio message increments chunk_count
and is relayed with that number; the final event breaks; other events are
skipped.  `step` indexes the iteration at which the cancellation schedule is
consulted; `count` is chunk_count so far.  Returns the relayed events in order
and the returned chunk count. -/
def readerRun (cancel : Nat → Bool) : Nat → Nat → List TtsMsg → List AudioChunkEvent × Nat
  | _, count, [] => ([], count)
  | step, count, m :: rest =>
    if cancel step then ([], count)
    else
      match m with
      | .audio p =>
        let r := readerRun cancel (step + 1) (count + 1) rest
        ({ chunk_num := count + 1, audio := p } :: r.1, r.2)
      | .finalEvent => ([], count)
      | .otherEvent => readerRun cancel (step + 1) count rest

/-- Model of tts.stream_to_client's observable behaviour: the audio_chunk
events relayed to the browser and the returned chunk count. -/
def stream_to_client (cancel : Nat → Bool) (msgs : List TtsMsg) :
    List AudioChunkEvent × Nat :=
  readerRun cancel 0 0 msgs

/-- Model of pipeline.tts_consumer: after the decision event, the search branch
(or a cancel observed then) returns without draining, so that leg emits no
audio chunks; otherwise it drains the queue through stream_to_client. -/
def tts_consumer (is_search cancelled : Bool) (cancel : Nat → Bool)
    (msgs : List TtsMsg) : List AudioChunkEvent × Nat :=
  if is_search || cancelled then ([], 0) else stream_to_client cancel msgs

theorem readerRun_cons_cancel {cancel : Nat → Bool} {step count : Nat} {m : TtsMsg}
    {rest : List TtsMsg} (h : cancel step = true) :
    readerRun cancel step count (m :: rest) = ([], count) := by
  cases m <;> simp [readerRun, h]

theorem readerRun_cons_audio {cancel : Nat → Bool} {step count : Nat} {p : String}
    {rest : List TtsMsg} (h : cancel step = false) :
    readerRun cancel step count (.audio p :: rest) =
      ({ chunk_num := count + 1, audio := p } :: (readerRun cancel (step + 1) (count + 1) rest).1,
       (readerRun cancel (step + 1) (count + 1) rest).2) := by
  simp [readerRun, h]

theorem readerRun_cons_final {cancel : Nat → Bool} {step count : Nat}
    {rest : List TtsMsg} (h : cancel step = false) :
    readerRun cancel step count (.finalEvent :: rest) = ([], count) := by
  simp [readerRun, h]

theorem readerRun_cons_other {cancel : Nat → Bool} {step count : Nat}
    {rest : List TtsMsg} (h : cancel step = false) :
    readerRun cancel step count (.otherEvent :: rest) =
      readerRun cancel (step + 1) count rest := by
  simp [readerRun, h]

theorem readerRun_spec (cancel : Nat → Bool) :
    ∀ (msgs : List TtsMsg) (step count : Nat),
      (readerRun cancel step count msgs).2
          = count + (readerRun cancel step count msgs).1.length ∧
      ∀ k (hk : k < (readerRun cancel step count msgs).1.length),
        ((readerRun cancel step count msgs).1.get ⟨k, hk⟩).chunk_num = count + k + 1 := by
  intro msgs
  induction msgs with
  | nil =>
    intro step count
    exact ⟨by simp [readerRun], by intro k hk; simp [readerRun] at hk⟩
  | cons m rest ih =>
    intro step count
    cases hcs : cancel step with
    | true =>
      rw [readerRun_cons_cancel hcs]
      exact ⟨by simp, by intro k hk; simp at hk⟩
    | false =>
      cases m with
      | audio p =>
        have ih' := ih (step + 1) (count + 1)
        have h1 := ih'.1
        rw [readerRun_cons_audio hcs]
        constructor
        · simp only [List.length_cons]
          omega
        · intro k hk
          cases k with
          | zero => simp
          | succ k0 =>
            simp only [List.length_cons] at hk
            have h2 := ih'.2 k0 (by omega)
            simp only [List.get_cons_succ]
            rw [h2]
            omega
      | finalEvent =>
        rw [readerRun_cons_final hcs]
        exact ⟨by simp, by intro k hk; simp at hk⟩
      | otherEvent =>
        rw [readerRun_cons_other hcs]
        exact ih (step + 1) count

/-- C7: for every run of the synthesis consumer, the k-th audio_chunk event
carries chunk_num k (numbering from 1, order preserved), the returned count
equals the number of events sent, cancellation before the first iteration
yields 0 events, and a search-pending first leg emits no chunks at all. -/
theorem claim_C7_chunk_numbering (cancel : Nat → Bool) (msgs : List TtsMsg)
    (cancelled : Bool) :
    ((stream_to_client cancel msgs).2 = (stream_to_client cancel msgs).1.length) ∧
    (∀ k (hk : k < (stream_to_client cancel msgs).1.length),
      ((stream_to_client cancel msgs).1.get ⟨k, hk⟩).chunk_num = k + 1) ∧
    (cancel 0 = true → stream_to_client cancel msgs = ([], 0)) ∧
    (tts_consumer true cancelled cancel msgs = ([], 0)) := by
  have h := readerRun_spec cancel msgs 0 0
  refine ⟨by simpa using h.1, ?_, ?_, ?_⟩
  · intro k hk
    have := h.2 k hk
    simpa using this
  · intro hc
    cases msgs with
    | nil => rfl
    | cons m rest => exact readerRun_cons_cancel hc
  · simp [tts_consumer]

/-- C7 witness: an uncancelled run over two audio chunks and the final event
returns 2 and numbers the chunks 1, 2; a pre-set cancel yields no chunks; the
search-pending leg emits nothing. -/
theorem claim_C7_witness :
    (stream_to_client (fun _ => false)
        [TtsMsg.audio "a", TtsMsg.audio "b", TtsMsg.finalEvent]).2
      = (stream_to_client (fun _ => false)
        [TtsMsg.audio "a", TtsMsg.audio "b", TtsMsg.finalEvent]).1.length ∧
    stream_to_client (fun _ => true) [TtsMsg.audio "a"] = ([], 0) ∧
    tts_consumer true false (fun _ => false) [TtsMsg.audio "a"] = ([], 0) := by
  have h1 := claim_C7_chunk_numbering (fun _ => false)
    [TtsMsg.audio "a", TtsMsg.audio "b", TtsMsg.finalEvent] false
  have h2 := claim_C7_chunk_numbering (fun _ => true) [TtsMsg.audio "a"] false
  exact ⟨h1.1, h2.2.2.1 rfl, h1.2.2.2⟩

/-- Number of audio messages in a list. -/
def countAudio (msgs : List TtsMsg) : Nat :=
  (msgs.filter (fun m => match m with | .audio _ => true | _ => false)).length

theorem readerRun_cancel_take (cancel : Nat → Bool)
    (hmono : ∀ j k, j ≤ k → cancel j = true → cancel k = true) :
    ∀ (msgs : List TtsMsg) (step count i : Nat), cancel (step + i) = true →
      readerRun cancel step count msgs = readerRun cancel step count (msgs.take i) := by
  intro msgs
  induction msgs with
  | nil =>
    intro step count i _
    simp
  | cons m rest ih =>
    intro step count i hi
    cases hcs : cancel step with
    | true =>
      cases i with
      | zero =>
        rw [readerRun_cons_cancel hcs]
        rfl
      | succ i0 =>
        rw [List.take_succ_cons, readerRun_cons_cancel hcs, readerRun_cons_cancel hcs]
    | false =>
      cases i with
      | zero =>
        rw [Nat.add_zero] at hi
        rw [hi] at hcs
        cases hcs
      | succ i0 =>
        rw [List.take_succ_cons]
        have hi' : cancel (step + 1 + i0) = true := by
          rw [show step + 1 + i0 = step + (i0 + 1) from by omega]
          exact hi
        cases m with
        | audio p =>
          rw [readerRun_cons_audio hcs, readerRun_cons_audio hcs]
          rw [ih (step + 1) (count + 1) i0 hi']
        | finalEvent =>
          rw [readerRun_cons_final hcs, readerRun_cons_final hcs]
        | otherEvent =>
          rw [readerRun_cons_other hcs, readerRun_cons_other hcs]
          exact ih (step + 1) count i0 hi'

theorem readerRun_le_countAudio (cancel : Nat → Bool) :
    ∀ (msgs : List TtsMsg) (step count : Nat),
      (readerRun cancel step count msgs).1.length ≤ countAudio msgs := by
  intro msgs
  induction msgs with
  | nil =>
    intro step count
    simp [readerRun, countAudio]
  | cons m rest ih =>
    intro step count
    cases hcs : cancel step with
    | true =>
      rw [readerRun_cons_cancel hcs]
      exact Nat.zero_le _
    | false =>
      cases m with
      | audio p =>
        rw [readerRun_cons_audio hcs]
        have := ih (step + 1) (count + 1)
        simp only [countAudio] at this
        simp [countAudio, List.filter_cons]
        omega
      | finalEvent =>
        rw [readerRun_cons_final hcs]
        exact Nat.zero_le _
      | otherEvent =>
        rw [readerRun_cons_other hcs]
        have := ih (step + 1) count
        simp only [countAudio, List.filter_cons] at this ⊢
        simpa using this

/-- C8: under a level-triggered cancellation signal (once set, it stays set),
if the signal is set by iteration i then the reader loop behaves exactly as if
the message stream stopped at i, and in particular it never relays more audio
chunks than the first i messages contain: no chunk N+1 is ever emitted after
cancellation is observed. -/
theorem claim_C8_no_chunks_after_cancel (cancel : Nat → Bool)
    (msgs : List TtsMsg) (i : Nat)
    (hmono : ∀ j k, j ≤ k → cancel j = true → cancel k = true)
    (hi : cancel i = true) :
    stream_to_client cancel msgs = stream_to_client cancel (msgs.take i) ∧
    (stream_to_client cancel msgs).1.length ≤ countAudio (msgs.take i) := by
  have h1 : stream_to_client cancel msgs = stream_to_client cancel (msgs.take i) :=
    readerRun_cancel_take cancel hmono msgs 0 0 i (by simpa using hi)
  refine ⟨h1, ?_⟩
  rw [h1]
  exact readerRun_le_countAudio cancel (msgs.take i) 0 0

/-- C8 witness: a signal set from iteration 2 on lets exactly the first two
audio chunks through a three-chunk stream. -/
theorem claim_C8_witness :
    stream_to_client (fun n => 2 ≤ n)
        [TtsMsg.audio "a", TtsMsg.audio "b", TtsMsg.audio "c"]
      = stream_to_client (fun n => 2 ≤ n)
        ([TtsMsg.audio "a", TtsMsg.audio "b", TtsMsg.audio "c"].take 2) ∧
    (stream_to_client (fun n => 2 ≤ n)
        [TtsMsg.audio "a", TtsMsg.audio "b", TtsMsg.audio "c"]).1.length
      ≤ countAudio ([TtsMsg.audio "a", TtsMsg.audio "b", TtsMsg.audio "c"].take 2) := by
  have h := claim_C8_no_chunks_after_cancel (fun n => 2 ≤ n)
    [TtsMsg.audio "a", TtsMsg.audio "b", TtsMsg.audio "c"] 2
    (by intro j k hjk hj; simp only [decide_eq_true_eq] at hj ⊢; omega)
    (by simp)
  exact h

/-- C6 witness: the amended characterization applied to a concrete transcript
containing a filler word. -/
theorem claim_C6_amended_witness :
    clean_for_search "Okay, tell me more".toList = "tell me more".toList ∧
    "Okay,".toList ∉ (splitWs "Okay, tell me more".toList).filter
      (fun w => !isFillerWord w) := by
  obtain ⟨kept, hkept, _, hiff, heq⟩ := claim_C6_amended "Okay, tell me more".toList
  constructor
  · rw [hkept] at heq
    rw [heq]
    decide
  · rw [← hkept]
    intro hmem
    have h := (hiff "Okay,".toList (by decide)).mp hmem
    have : isFillerWord "Okay,".toList = true := by decide
    rw [this] at h
    cases h

/-- C10 witness: the remainder invariant applied to a concrete buffer that
contains a terminated sentence. -/
theorem claim_C10_witness :
    ¬ matchesAt (extract_sentences "Hello there. Partial".toList).2 0 :=
  claim_C10_remainder_has_no_terminator "Hello there. Partial".toList 0

end Baatein
